import Mathlib

/-!
Verification of the Goldbach mirror / conductor rigidity scripts.

The embedding follows the two Python sources:
  * `verify_discriminant.py` : `compute_discriminant`, `ord_p`;
  * `goldbach_scanner_v2.py` : `sieve_of_eratosthenes`, `wormhole_factor`,
    `classify_orbit`, and the ordered Goldbach counting loop of
    `run_project_mirror`.

Python's unbounded integers are modelled by `Int`/`Nat`, the bytearray
primality table by `List Bool`, and the float arithmetic of
`wormhole_factor` by exact rationals (the one claim decided on that
function is settled on its control flow, which floats and rationals
share).  A bytearray index assignment that can fall out of range is
modelled as an `Option`-returning update.
-/

/-- `compute_discriminant(roots)` from `verify_discriminant.py`:
the product over all pairs of indices `i < j` of
`(roots[i] - roots[j])^2`, accumulated exactly as the two nested
`for` loops do. -/
def compute_discriminant (roots : List Int) : Int :=
  (List.range roots.length).foldl
    (fun disc i =>
      (List.range' (i + 1) (roots.length - (i + 1))).foldl
        (fun d j => d * (roots.getD i 0 - roots.getD j 0) ^ 2) disc)
    1

/-- The `while n % p == 0` loop of `ord_p` in `verify_discriminant.py`.
The source loop divides `n` by `p` while `p` divides `n`; the guard
`2 ≤ p ∧ n ≠ 0` records the conditions under which the source loop
terminates (they hold at every call site reached from `ord_p` with a
prime modulus and a nonzero argument, where the loop keeps `n` nonzero). -/
def ord_loop (p : Int) (n : Int) : Nat :=
  if h : 2 ≤ p ∧ n ≠ 0 ∧ n % p = 0 then
    have hd : (p : Int) ∣ n := Int.dvd_of_emod_eq_zero h.2.2
    have hq : p * (n / p) = n := Int.mul_ediv_cancel' hd
    have hne : n / p ≠ 0 := by
      intro h0
      rw [h0, mul_zero] at hq
      exact h.2.1 hq.symm
    have : (n / p).natAbs < n.natAbs := by
      have h2 : (2 : Nat) ≤ p.natAbs := by
        have := h.1
        omega
      have habs : n.natAbs = p.natAbs * (n / p).natAbs := by
        rw [← Int.natAbs_mul, hq]
      have hpos : 0 < (n / p).natAbs := Int.natAbs_pos.mpr hne
      calc (n / p).natAbs < 2 * (n / p).natAbs := by omega
        _ ≤ p.natAbs * (n / p).natAbs := Nat.mul_le_mul_right _ h2
        _ = n.natAbs := habs.symm
    1 + ord_loop p (n / p)
  else 0
termination_by n.natAbs

/-- `ord_p(n, p)` from `verify_discriminant.py`: the p-adic valuation of
`n`, with the `float('inf')` sentinel for `n = 0` modelled as `⊤` in
`WithTop Nat`. -/
def ord_p (n p : Int) : WithTop Nat :=
  if n = 0 then ⊤ else (ord_loop p n : WithTop Nat)

/-- Bytearray index assignment `arr[i] = v`: in range it updates the
entry, out of range it raises (modelled as `none`). -/
def setAt (arr : List Bool) (i : Nat) (v : Bool) : Option (List Bool) :=
  if i < arr.length then some (arr.set i v) else none

/-- The slice assignment `is_prime[start::step] = zeros` of the sieve:
entry `k + j` (for the `j`-th element of the list, shifted by the
accumulator `k`) is cleared when it lies at `start`, `start + step`,
`start + 2·step`, …; the top-level call uses `k = 0`. -/
def strikeFrom (start step k : Nat) : List Bool → List Bool
  | [] => []
  | b :: bs =>
      (if start ≤ k ∧ (k - start) % step = 0 then false else b) ::
        strikeFrom start step (k + 1) bs

/-- The `for i in range(2, isqrt(limit)+1)` loop of
`sieve_of_eratosthenes`: for each candidate `i` still marked prime,
clear the multiples of `i` from `i*i` on. -/
def sieveLoop : List Nat → List Bool → List Bool
  | [], arr => arr
  | i :: is, arr =>
      sieveLoop is (if arr.getD i false then strikeFrom (i * i) i 0 arr else arr)

/-- `sieve_of_eratosthenes(limit)` from `goldbach_scanner_v2.py`.  The
bytearray of `limit + 1` ones, the two index assignments
`is_prime[0] = is_prime[1] = 0` (the second of which is out of range
when `limit = 0`), and the marking loop over `2 … isqrt(limit)`. -/
def sieve_of_eratosthenes (limit : Nat) : Option (List Bool) :=
  (setAt (List.replicate (limit + 1) true) 0 false).bind fun a =>
    (setAt a 1 false).bind fun a =>
      some (sieveLoop (List.range' 2 (Nat.sqrt limit + 1 - 2)) a)

/-- The `while temp % p == 0: temp //= p` loop of `wormhole_factor`.
The guard `2 ≤ p ∧ temp ≠ 0` records when the source loop terminates;
both conjuncts hold wherever `wormhole_factor` reaches this loop with a
nonzero argument. -/
def strip_factor (p temp : Nat) : Nat :=
  if h : 2 ≤ p ∧ temp ≠ 0 ∧ temp % p = 0 then
    have : temp / p < temp := Nat.div_lt_self (Nat.pos_of_ne_zero h.2.1) (by omega)
    strip_factor p (temp / p)
  else temp
termination_by temp

/-- The `for p in primes` loop of `wormhole_factor`, carrying the pair
`(factor, temp)` and stopping at the first prime above
`isqrt(n)`.  Python's float arithmetic is modelled exactly over `ℚ`. -/
def wf_loop (limit : Nat) : List Nat → Rat × Nat → Rat × Nat
  | [], st => st
  | p :: ps, (factor, temp) =>
      if limit < p then (factor, temp)
      else if 2 < p ∧ temp % p = 0 then
        wf_loop limit ps (factor * (((p : Rat) - 1) / ((p : Rat) - 2)), strip_factor p temp)
      else wf_loop limit ps (factor, temp)

/-- `wormhole_factor(n, primes)` from `goldbach_scanner_v2.py`: trial
division of `temp = n` by the listed primes up to `isqrt(n)`, one
correction factor `(p-1)/(p-2)` per stripped prime, then the final
`if temp > 2` correction on whatever remains. -/
def wormhole_factor (n : Nat) (primes : List Nat) : Rat :=
  let st := wf_loop (Nat.sqrt n) primes (1, n)
  if 2 < st.2 then st.1 * (((st.2 : Rat) - 1) / ((st.2 : Rat) - 2)) else st.1

/-- `classify_orbit(n)` from `goldbach_scanner_v2.py`. -/
def classify_orbit (n : Nat) : String :=
  if n % 6 = 0 then "Resonant (mod 6)"
  else if n % 3 = 0 then "Stable (mod 3)"
  else "Generic"

/-- The Goldbach counting loop of `run_project_mirror`: walk the prime
sequence, stop at the first `p ≥ n`, and count each `p` with `p > 1`,
`n - p > 1` and `is_prime[n - p]` set. -/
def gcLoop (n : Nat) (table : List Bool) : List Nat → Nat → Nat
  | [], count => count
  | p :: ps, count =>
      if n ≤ p then count
      else if 1 < p ∧ 1 < n - p ∧ table.getD (n - p) false = true then
        gcLoop n table ps (count + 1)
      else gcLoop n table ps count

/-- The ordered Goldbach representation count `G(2N)` computed by the
scan in `run_project_mirror`, starting from `count = 0`. -/
def goldbach_count (n : Nat) (table : List Bool) (primes : List Nat) : Nat :=
  gcLoop n table primes 0

/-- Specification predicate for the sieve invariant: index `j` has been
struck by some already processed candidate `d < m` (necessarily prime,
dividing `j`, with `d² ≤ j`). -/
def struck (m j : Nat) : Prop :=
  ∃ d, 2 ≤ d ∧ d < m ∧ Nat.Prime d ∧ d ∣ j ∧ d * d ≤ j

/-- Invariant of the sieve loop over a table for bound `L` after all
candidates below `m` have been processed. -/
def sieveInv (L m : Nat) (arr : List Bool) : Prop :=
  arr.length = L + 1 ∧
    ∀ j, j ≤ L → (arr.getD j false = true ↔ (2 ≤ j ∧ ¬ struck m j))

/-- One-step unfolding of `compute_discriminant` on a five-element list;
this is exactly the factor order produced by the nested loops. -/
theorem compute_discriminant_five (a b c d e : Int) :
    compute_discriminant [a, b, c, d, e] =
      1 * (a - b) ^ 2 * (a - c) ^ 2 * (a - d) ^ 2 * (a - e) ^ 2
        * (b - c) ^ 2 * (b - d) ^ 2 * (b - e) ^ 2
        * (c - d) ^ 2 * (c - e) ^ 2 * (d - e) ^ 2 := rfl

/-- The closed form of the discriminant of `{0, p, -p, q, -q}` with
`q = 2N - p`, as a polynomial identity over `ℤ`. -/
theorem discriminant_formula (N p : Int) :
    compute_discriminant [0, p, -p, 2 * N - p, -(2 * N - p)] =
      2 ^ 12 * p ^ 6 * (2 * N - p) ^ 6 * (N - p) ^ 4 * N ^ 4 := by
  rw [compute_discriminant_five]
  ring

/-- Claim C1: for every `N ≥ 1` and `0 < p < 2N`, with `q = 2N - p`,
`compute_discriminant` on the root set `{0, p, -p, q, -q}` equals
`2^12 · p^6 · q^6 · (N-p)^4 · N^4` exactly. -/
theorem claim_C1_discriminant_formula (N p : Int)
    (hN : 1 ≤ N) (hp0 : 0 < p) (hp2 : p < 2 * N) :
    compute_discriminant [0, p, -p, 2 * N - p, -(2 * N - p)] =
      2 ^ 12 * p ^ 6 * (2 * N - p) ^ 6 * (N - p) ^ 4 * N ^ 4 :=
  discriminant_formula N p

/-- Witness for claim C1 at `N = 15`, `p = 7` (the case printed by both
scripts). -/
theorem claim_C1_witness :
    (1 : Int) ≤ 15 ∧ (0 : Int) < 7 ∧ (7 : Int) < 2 * 15 ∧
      compute_discriminant [0, 7, -7, 2 * 15 - 7, -(2 * 15 - 7)] =
        2 ^ 12 * 7 ^ 6 * (2 * 15 - 7) ^ 6 * (15 - 7) ^ 4 * 15 ^ 4 :=
  ⟨by norm_num, by norm_num, by norm_num,
    claim_C1_discriminant_formula 15 7 (by norm_num) (by norm_num) (by norm_num)⟩

/-- A fold that only ever multiplies a nonnegative accumulator by squares
stays nonnegative. -/
theorem foldl_mul_sq_nonneg (g : Nat → Int) (l : List Nat) :
    ∀ acc : Int, 0 ≤ acc → 0 ≤ l.foldl (fun d j => d * g j ^ 2) acc := by
  induction l with
  | nil => intro acc h; simpa using h
  | cons j js ih =>
      intro acc h
      exact ih _ (mul_nonneg h (sq_nonneg _))

/-- The outer fold of `compute_discriminant` preserves nonnegativity. -/
theorem disc_foldl_nonneg (roots : List Int) (l : List Nat) :
    ∀ acc : Int, 0 ≤ acc →
      0 ≤ l.foldl
        (fun disc i =>
          (List.range' (i + 1) (roots.length - (i + 1))).foldl
            (fun d j => d * (roots.getD i 0 - roots.getD j 0) ^ 2) disc)
        acc := by
  induction l with
  | nil => intro acc h; simpa using h
  | cons i is ih =>
      intro acc h
      exact ih _ (foldl_mul_sq_nonneg (fun j => roots.getD i 0 - roots.getD j 0) _ acc h)

/-- Claim C10: `compute_discriminant` is nonnegative on every list of
integer roots, the empty list included. -/
theorem claim_C10_disc_nonneg (roots : List Int) :
    0 ≤ compute_discriminant roots :=
  disc_foldl_nonneg roots (List.range roots.length) 1 (by norm_num)

/-- Dividing a nonzero multiple of `p` (with `2 ≤ p`) by `p` strictly
shrinks its absolute value: the measure used by the `ord_p` loop. -/
theorem natAbs_ediv_lt (n p : Int) (hp : 2 ≤ p) (hn : n ≠ 0) (hmod : n % p = 0) :
    (n / p).natAbs < n.natAbs := by
  have hd : p ∣ n := Int.dvd_of_emod_eq_zero hmod
  have hq : p * (n / p) = n := Int.mul_ediv_cancel' hd
  have hne : n / p ≠ 0 := by
    intro h0
    rw [h0, mul_zero] at hq
    exact hn hq.symm
  have h2 : (2 : Nat) ≤ p.natAbs := by omega
  have habs : n.natAbs = p.natAbs * (n / p).natAbs := by
    rw [← Int.natAbs_mul, hq]
  have hpos : 0 < (n / p).natAbs := Int.natAbs_pos.mpr hne
  calc (n / p).natAbs < 2 * (n / p).natAbs := by omega
    _ ≤ p.natAbs * (n / p).natAbs := Nat.mul_le_mul_right _ h2
    _ = n.natAbs := habs.symm

/-- The `ord_p` loop computes the exact multiplicity: `p ^ v` divides `n`
and `p ^ (v+1)` does not, where `v` is the returned count. -/
theorem ord_loop_sound (p : Int) (hp : 2 ≤ p) :
    ∀ (k : Nat) (n : Int), n.natAbs ≤ k → n ≠ 0 →
      p ^ ord_loop p n ∣ n ∧ ¬ p ^ (ord_loop p n + 1) ∣ n := by
  intro k
  induction k with
  | zero =>
      intro n hk hn
      exact absurd (Int.natAbs_eq_zero.mp (Nat.le_zero.mp hk)) hn
  | succ k ih =>
      intro n hk hn
      rw [ord_loop]
      by_cases hmod : n % p = 0
      · rw [dif_pos ⟨hp, hn, hmod⟩]
        have hd : p ∣ n := Int.dvd_of_emod_eq_zero hmod
        have hq : p * (n / p) = n := Int.mul_ediv_cancel' hd
        have hne : n / p ≠ 0 := by
          intro h0
          rw [h0, mul_zero] at hq
          exact hn hq.symm
        have hlt : (n / p).natAbs < n.natAbs := natAbs_ediv_lt n p hp hn hmod
        obtain ⟨h1, h2⟩ := ih (n / p) (by omega) hne
        have hp0 : p ≠ 0 := by omega
        constructor
        · rw [add_comm 1 _, pow_succ]
          calc p ^ ord_loop p (n / p) * p ∣ (n / p) * p :=
                mul_dvd_mul_right h1 p
            _ = n := by rw [mul_comm, hq]
        · intro hcon
          apply h2
          have hrw : p ^ (1 + ord_loop p (n / p) + 1) =
              p * p ^ (ord_loop p (n / p) + 1) := by ring
          rw [hrw] at hcon
          have hcon2 : p * p ^ (ord_loop p (n / p) + 1) ∣ p * (n / p) := by
            rw [hq]
            exact hcon
          exact (mul_dvd_mul_iff_left hp0).mp hcon2
      · rw [dif_neg (by tauto)]
        refine ⟨by simpa using dvd_refl 1 |>.trans (one_dvd n), ?_⟩
        intro hcon
        rw [pow_one] at hcon
        exact hmod (Int.emod_eq_zero_of_dvd hcon)

/-- Characterisation of `ord_loop` at its own return value. -/
theorem ord_loop_dvd_char (p n : Int) (hp : 2 ≤ p) (hn : n ≠ 0) :
    p ^ ord_loop p n ∣ n ∧ ¬ p ^ (ord_loop p n + 1) ∣ n :=
  ord_loop_sound p hp n.natAbs n le_rfl hn

/-- Exact multiplicity is unique. -/
theorem pow_dvd_unique (r n : Int) (a b : Nat)
    (ha1 : r ^ a ∣ n) (ha2 : ¬ r ^ (a + 1) ∣ n)
    (hb1 : r ^ b ∣ n) (hb2 : ¬ r ^ (b + 1) ∣ n) : a = b := by
  rcases Nat.lt_trichotomy a b with h | h | h
  · exact absurd ((pow_dvd_pow r (by omega)).trans hb1) ha2
  · exact h
  · exact absurd ((pow_dvd_pow r (by omega)).trans ha1) hb2

/-- `ord_loop` returns `k` as soon as `p ^ k` exactly divides `n`. -/
theorem ord_loop_eq_of (p n : Int) (hp : 2 ≤ p) (hn : n ≠ 0) (k : Nat)
    (h1 : p ^ k ∣ n) (h2 : ¬ p ^ (k + 1) ∣ n) : ord_loop p n = k := by
  obtain ⟨g1, g2⟩ := ord_loop_dvd_char p n hp hn
  exact pow_dvd_unique p n (ord_loop p n) k g1 g2 h1 h2

/-- Claim C8: the valuation utility terminates: the zero input returns the
infinite sentinel at once, a nonzero input yields a finite nonnegative
count, and each division step strictly decreases the absolute value of
the remaining cofactor. -/
theorem claim_C8_ord_terminates (n p : Int) (hp : 2 ≤ p) :
    (n = 0 → ord_p n p = ⊤) ∧
    (n ≠ 0 → ∃ v : Nat, ord_p n p = (v : WithTop Nat)) ∧
    (n ≠ 0 → n % p = 0 → (n / p).natAbs < n.natAbs) := by
  refine ⟨fun h => by simp [ord_p, h], fun h => ⟨ord_loop p n, by simp [ord_p, h]⟩,
    fun hn hmod => natAbs_ediv_lt n p hp hn hmod⟩

/-- Witness for claim C8 at `n = 12`, `p = 2`. -/
theorem claim_C8_witness : ∃ v : Nat, ord_p 12 2 = (v : WithTop Nat) :=
  (claim_C8_ord_terminates 12 2 (by norm_num)).2.1 (by norm_num)

/-- A natural prime other than 2 does not divide 2 over the integers. -/
theorem prime_ne_two_not_dvd_two (r : Nat) (hr : Nat.Prime r) (hne : r ≠ 2) :
    ¬ ((r : Int) ∣ 2) := by
  intro h
  have h2 : r ∣ 2 := by exact_mod_cast h
  have hle : r ≤ 2 := Nat.le_of_dvd (by norm_num) h2
  have := hr.two_le
  omega

/-- Valuation transfer: if `r` is prime and exactly `r ^ v` divides `N`,
then exactly `r ^ (4 v)` divides `c · N ^ 4` whenever `r ∤ c`. -/
theorem ord_loop_disc_aux (r : Int) (hr : Prime r) (hr2 : 2 ≤ r)
    (N c : Int) (hN : N ≠ 0) (hc : ¬ r ∣ c) :
    ord_loop r (c * N ^ 4) = 4 * ord_loop r N := by
  have hr0 : r ≠ 0 := by omega
  obtain ⟨hv1, hv2⟩ := ord_loop_dvd_char r N hr2 hN
  set v := ord_loop r N with hv
  have hMN : r ^ v * (N / r ^ v) = N := Int.mul_ediv_cancel' hv1
  set M := N / r ^ v with hM
  have hRM : ¬ r ∣ M := by
    intro h
    apply hv2
    rw [pow_succ, ← hMN]
    exact mul_dvd_mul_left _ h
  have hsplit : ¬ r ∣ c * M ^ 4 := by
    intro h
    rcases hr.dvd_mul.mp h with h | h
    · exact hc h
    · exact hRM (hr.dvd_of_dvd_pow h)
  have hfact : c * N ^ 4 = r ^ (4 * v) * (c * M ^ 4) := by
    rw [← hMN]
    ring
  have h1 : r ^ (4 * v) ∣ c * N ^ 4 := ⟨c * M ^ 4, hfact⟩
  have h2 : ¬ r ^ (4 * v + 1) ∣ c * N ^ 4 := by
    intro hcon
    rw [hfact, pow_succ] at hcon
    exact hsplit ((mul_dvd_mul_iff_left (pow_ne_zero _ hr0)).mp hcon)
  have hne : c * N ^ 4 ≠ 0 := by
    intro h0
    exact h2 (by rw [h0]; exact dvd_zero _)
  exact ord_loop_eq_of r (c * N ^ 4) hr2 hne (4 * v) h1 h2

/-- Counterexample to claim C2 as stated: at `N = 2`, `p = 1`, the prime
`r = 2` satisfies every hypothesis of the claim (`r` does not divide
`p·q·(N−p) = 3`), yet the valuation of the discriminant at 2 is 16, not
`4 · ord_2(N) = 4`. -/
theorem claim_C2_counterexample :
    Nat.Prime 2 ∧ (1 : Int) ≤ 2 ∧ (0 : Int) < 1 ∧ (1 : Int) < 2 * 2 ∧
      ¬ ((2 : Int) ∣ 1 * (2 * 2 - 1) * (2 - 1)) ∧
      ord_p (compute_discriminant [0, 1, -1, 2 * 2 - 1, -(2 * 2 - 1)]) 2 ≠
        4 * ord_p 2 2 := by
  refine ⟨by norm_num, by norm_num, by norm_num, by norm_num, by decide, ?_⟩
  have hd : compute_discriminant [0, 1, -1, 2 * 2 - 1, -(2 * 2 - 1)] = 47775744 := by
    decide
  have h1 : ord_loop 2 47775744 = 16 :=
    ord_loop_eq_of 2 47775744 (by norm_num) (by norm_num) 16 (by norm_num) (by norm_num)
  have h2 : ord_loop 2 2 = 1 :=
    ord_loop_eq_of 2 2 (by norm_num) (by norm_num) 1 (by norm_num) (by norm_num)
  rw [hd]
  simp only [ord_p]
  rw [if_neg (by norm_num : (47775744 : Int) ≠ 0), if_neg (by norm_num : (2 : Int) ≠ 0),
    h1, h2]
  decide

/-- Claim C2, amended: the identity `ord_r(Δ) = 4 · ord_r(N)` holds for
every ODD prime `r` not dividing `p·q·(N−p)` (the code's own docstring
restricts to `r > 2`; the claim's extension to `r = 2` is false, see the
counterexample). -/
theorem claim_C2_amended_valuation (N p : Int) (r : Nat) (hr : Nat.Prime r)
    (hodd : r ≠ 2) (hN : 1 ≤ N) (hp0 : 0 < p) (hp2 : p < 2 * N)
    (hnd : ¬ ((r : Int) ∣ p * (2 * N - p) * (N - p))) :
    ord_p (compute_discriminant [0, p, -p, 2 * N - p, -(2 * N - p)]) (r : Int) =
      4 * ord_p N (r : Int) := by
  have hR2 : (2 : Int) ≤ (r : Int) := by exact_mod_cast hr.two_le
  have hRprime : Prime (r : Int) := Int.prime_iff_natAbs_prime.mpr (by simpa using hr)
  have hdp : ¬ ((r : Int) ∣ p) := fun h =>
    hnd (dvd_mul_of_dvd_left (dvd_mul_of_dvd_left h _) _)
  have hdq : ¬ ((r : Int) ∣ (2 * N - p)) := fun h =>
    hnd (dvd_mul_of_dvd_left (dvd_mul_of_dvd_right h _) _)
  have hdnp : ¬ ((r : Int) ∣ (N - p)) := fun h => hnd (dvd_mul_of_dvd_right h _)
  have hd2 : ¬ ((r : Int) ∣ 2) := prime_ne_two_not_dvd_two r hr hodd
  have hNne : N ≠ 0 := by omega
  have hRc : ¬ ((r : Int) ∣ 2 ^ 12 * p ^ 6 * (2 * N - p) ^ 6 * (N - p) ^ 4) := by
    intro h
    rcases hRprime.dvd_mul.mp h with h | h
    · rcases hRprime.dvd_mul.mp h with h | h
      · rcases hRprime.dvd_mul.mp h with h | h
        · exact hd2 (hRprime.dvd_of_dvd_pow h)
        · exact hdp (hRprime.dvd_of_dvd_pow h)
      · exact hdq (hRprime.dvd_of_dvd_pow h)
    · exact hdnp (hRprime.dvd_of_dvd_pow h)
  have hΔ : compute_discriminant [0, p, -p, 2 * N - p, -(2 * N - p)] =
      2 ^ 12 * p ^ 6 * (2 * N - p) ^ 6 * (N - p) ^ 4 * N ^ 4 := discriminant_formula N p
  have hval : ord_loop (r : Int)
      (2 ^ 12 * p ^ 6 * (2 * N - p) ^ 6 * (N - p) ^ 4 * N ^ 4) =
      4 * ord_loop (r : Int) N := by
    have := ord_loop_disc_aux (r : Int) hRprime hR2 N
      (2 ^ 12 * p ^ 6 * (2 * N - p) ^ 6 * (N - p) ^ 4) hNne hRc
    rw [← this]
  have hΔne : 2 ^ 12 * p ^ 6 * (2 * N - p) ^ 6 * (N - p) ^ 4 * N ^ 4 ≠ 0 := by
    have h2 : (2 : Int) ^ 12 ≠ 0 := by norm_num
    have hpne : p ≠ 0 := by omega
    have hqne : (2 * N - p) ≠ 0 := by
      intro h0
      exact hdq (h0 ▸ dvd_zero _)
    have hnpne : (N - p) ≠ 0 := by
      intro h0
      exact hdnp (h0 ▸ dvd_zero _)
    exact mul_ne_zero (mul_ne_zero (mul_ne_zero (mul_ne_zero h2
      (pow_ne_zero _ hpne)) (pow_ne_zero _ hqne)) (pow_ne_zero _ hnpne))
      (pow_ne_zero _ hNne)
  rw [hΔ]
  simp only [ord_p]
  rw [if_neg hΔne, if_neg hNne, hval]
  push_cast
  ring

/-- Witness for the amended claim C2 at `N = 49`, `p = 3`, `r = 7`
(the spec's concrete case: both sides equal 8). -/
theorem claim_C2_witness :
    ¬ (((7 : Nat) : Int) ∣ 3 * (2 * 49 - 3) * (49 - 3)) ∧
      ord_p (compute_discriminant [0, 3, -3, 2 * 49 - 3, -(2 * 49 - 3)]) ((7 : Nat) : Int) =
        4 * ord_p 49 ((7 : Nat) : Int) :=
  ⟨by norm_num,
    claim_C2_amended_valuation 49 3 7 (by norm_num) (by norm_num) (by norm_num)
      (by norm_num) (by norm_num) (by norm_num)⟩

/-- `strikeFrom` preserves the length of the table. -/
theorem strikeFrom_length (start step : Nat) :
    ∀ (l : List Bool) (k : Nat), (strikeFrom start step k l).length = l.length := by
  intro l
  induction l with
  | nil => intro k; rfl
  | cons b bs ih =>
      intro k
      simp only [strikeFrom, List.length_cons, ih]

/-- Entrywise description of `strikeFrom`: entry `j` is cleared exactly
when its absolute position `k + j` lies on the struck arithmetic
progression. -/
theorem strikeFrom_getD (start step : Nat) :
    ∀ (l : List Bool) (k j : Nat), j < l.length →
      (strikeFrom start step k l).getD j false =
        if start ≤ k + j ∧ (k + j - start) % step = 0 then false
        else l.getD j false := by
  intro l
  induction l with
  | nil => intro k j hj; simp at hj
  | cons b bs ih =>
      intro k j hj
      cases j with
      | zero =>
          simp only [strikeFrom, List.getD_cons_zero, Nat.add_zero]
      | succ j =>
          have hj' : j < bs.length := by simpa using hj
          simp only [strikeFrom, List.getD_cons_succ]
          rw [ih (k + 1) j hj']
          have harith : k + 1 + j = k + (j + 1) := by omega
          rw [harith]

/-- Unfolding `struck` at the successor bound. -/
theorem struck_succ (m j : Nat) :
    struck (m + 1) j ↔ struck m j ∨ (2 ≤ m ∧ Nat.Prime m ∧ m ∣ j ∧ m * m ≤ j) := by
  constructor
  · rintro ⟨d, hd2, hdlt, hdp, hdd, hdsq⟩
    rcases Nat.lt_succ_iff_lt_or_eq.mp hdlt with h | h
    · exact Or.inl ⟨d, hd2, h, hdp, hdd, hdsq⟩
    · subst h
      exact Or.inr ⟨hd2, hdp, hdd, hdsq⟩
  · rintro (⟨d, hd2, hdlt, hdp, hdd, hdsq⟩ | ⟨h2m, hp, hd, hsq⟩)
    · exact ⟨d, hd2, Nat.lt_succ_of_lt hdlt, hdp, hdd, hdsq⟩
    · exact ⟨m, h2m, Nat.lt_succ_self m, hp, hd, hsq⟩

/-- One pass of the sieve body preserves the invariant, advancing the
processed bound from `m` to `m + 1`. -/
theorem sieve_step (L m : Nat) (arr : List Bool) (h2 : 2 ≤ m) (hm : m ≤ L)
    (hinv : sieveInv L m arr) :
    sieveInv L (m + 1) (if arr.getD m false then strikeFrom (m * m) m 0 arr else arr) := by
  obtain ⟨hlen, hiff⟩ := hinv
  by_cases harr : arr.getD m false = true
  · rw [if_pos harr]
    have hmprime : Nat.Prime m := by
      by_contra hnp
      obtain ⟨h2m, hnstruck⟩ := (hiff m hm).mp harr
      apply hnstruck
      have hne1 : m ≠ 1 := by omega
      have hfp : (Nat.minFac m).Prime := Nat.minFac_prime hne1
      have hfd : Nat.minFac m ∣ m := Nat.minFac_dvd m
      have hsq : Nat.minFac m * Nat.minFac m ≤ m := by
        have := Nat.minFac_sq_le_self (by omega) hnp
        rwa [pow_two] at this
      have hlt : Nat.minFac m < m := by
        rcases Nat.lt_or_ge (Nat.minFac m) m with h | h
        · exact h
        · have hle : Nat.minFac m ≤ m := Nat.le_of_dvd (by omega) hfd
          have heq : Nat.minFac m = m := le_antisymm hle h
          exact absurd (heq ▸ hfp) hnp
      exact ⟨Nat.minFac m, hfp.two_le, hlt, hfp, hfd, hsq⟩
    refine ⟨by rw [strikeFrom_length]; exact hlen, ?_⟩
    intro j hj
    have hjlen : j < arr.length := by omega
    rw [strikeFrom_getD (m * m) m arr 0 j hjlen]
    simp only [Nat.zero_add]
    have hcond : (m * m ≤ j ∧ (j - m * m) % m = 0) ↔ (m * m ≤ j ∧ m ∣ j) := by
      constructor
      · rintro ⟨hle, hmod⟩
        refine ⟨hle, ?_⟩
        have hd : m ∣ (j - m * m) := Nat.dvd_of_mod_eq_zero hmod
        have hmm : m ∣ m * m := ⟨m, rfl⟩
        have hsum := Nat.dvd_add hd hmm
        rwa [Nat.sub_add_cancel hle] at hsum
      · rintro ⟨hle, hdvd⟩
        exact ⟨hle, Nat.mod_eq_zero_of_dvd (Nat.dvd_sub' hdvd ⟨m, rfl⟩)⟩
    split_ifs with hC
    · constructor
      · intro hf
        exact absurd hf (by decide)
      · rintro ⟨h2j, hnst⟩
        exfalso
        apply hnst
        obtain ⟨hle, hdvd⟩ := hcond.mp hC
        exact (struck_succ m j).mpr (Or.inr ⟨h2, hmprime, hdvd, hle⟩)
    · rw [hiff j hj]
      have hC2 : ¬ (m * m ≤ j ∧ m ∣ j) := fun h => hC (hcond.mpr h)
      constructor
      · rintro ⟨h2j, hn⟩
        refine ⟨h2j, fun hst => ?_⟩
        rcases (struck_succ m j).mp hst with h | ⟨_, _, hd, hle⟩
        · exact hn h
        · exact hC2 ⟨hle, hd⟩
      · rintro ⟨h2j, hn⟩
        exact ⟨h2j, fun hst => hn ((struck_succ m j).mpr (Or.inl hst))⟩
  · rw [if_neg harr]
    have hmnotprime : ¬ Nat.Prime m := by
      intro hp
      have hstruck : struck m m := by
        by_contra hns
        exact harr ((hiff m hm).mpr ⟨h2, hns⟩)
      obtain ⟨d, hd2, hdlt, hdp, hdd, hdsq⟩ := hstruck
      rcases Nat.Prime.eq_one_or_self_of_dvd hp d hdd with h | h <;> omega
    refine ⟨hlen, ?_⟩
    intro j hj
    rw [hiff j hj]
    constructor
    · rintro ⟨h2j, hn⟩
      refine ⟨h2j, fun hst => ?_⟩
      rcases (struck_succ m j).mp hst with h | ⟨_, hp, _, _⟩
      · exact hn h
      · exact hmnotprime hp
    · rintro ⟨h2j, hn⟩
      exact ⟨h2j, fun hst => hn ((struck_succ m j).mpr (Or.inl hst))⟩

/-- Running the sieve loop over candidates `m, m+1, …, m+k-1` carries
the invariant from bound `m` to bound `m + k`. -/
theorem sieve_loop_inv (L : Nat) :
    ∀ (k m : Nat) (arr : List Bool), 2 ≤ m → m + k ≤ L + 1 → sieveInv L m arr →
      sieveInv L (m + k) (sieveLoop (List.range' m k) arr) := by
  intro k
  induction k with
  | zero =>
      intro m arr _ _ hinv
      simpa [sieveLoop] using hinv
  | succ k ih =>
      intro m arr h2 hmk hinv
      rw [List.range'_succ m k 1]
      simp only [sieveLoop]
      have hstep := sieve_step L m arr h2 (by omega) hinv
      have hres := ih (m + 1) _ (by omega) (by omega) hstep
      have harith : m + 1 + k = m + (k + 1) := by omega
      rwa [harith] at hres

/-- The freshly initialised table satisfies the invariant at bound 2. -/
theorem sieve_init (L : Nat) (hL : 1 ≤ L) :
    sieveInv L 2 (((List.replicate (L + 1) true).set 0 false).set 1 false) := by
  obtain ⟨K, rfl⟩ : ∃ K, L = K + 1 := ⟨L - 1, by omega⟩
  have hrepr : ((List.replicate (K + 1 + 1) true).set 0 false).set 1 false =
      false :: false :: List.replicate K true := by
    rw [List.replicate_succ, List.replicate_succ, List.set_cons_zero,
      List.set_cons_succ, List.set_cons_zero]
  rw [hrepr]
  refine ⟨by simp, ?_⟩
  intro j hj
  have hget : (false :: false :: List.replicate K true).getD j false =
      if 2 ≤ j then true else false := by
    rcases j with _ | _ | j
    · rfl
    · rfl
    · have hjK : j < K := by omega
      rw [if_pos (by omega : 2 ≤ j + 1 + 1)]
      simp only [List.getD_cons_succ]
      rw [List.getD_eq_getElem?_getD, List.getElem?_replicate, if_pos hjK]
      rfl
  rw [hget]
  split_ifs with h2j
  · constructor
    · intro _
      refine ⟨h2j, ?_⟩
      rintro ⟨d, hd2, hdlt, _, _, _⟩
      omega
    · intro _
      rfl
  · constructor
    · intro h
      exact absurd h (by decide)
    · rintro ⟨h2j', _⟩
      omega

/-- With all candidates up to `√L` processed, survival in the table is
exactly primality (for indices up to `L`). -/
theorem not_struck_iff_prime (L j : Nat) (hj : j ≤ L) :
    (2 ≤ j ∧ ¬ struck (Nat.sqrt L + 1) j) ↔ j.Prime := by
  constructor
  · rintro ⟨h2j, hn⟩
    by_contra hnp
    apply hn
    have hne1 : j ≠ 1 := by omega
    have hfp := Nat.minFac_prime hne1
    have hfd := Nat.minFac_dvd j
    have hsq : Nat.minFac j * Nat.minFac j ≤ j := by
      have := Nat.minFac_sq_le_self (by omega) hnp
      rwa [pow_two] at this
    have hle : Nat.minFac j ≤ Nat.sqrt L := Nat.le_sqrt.mpr (le_trans hsq hj)
    exact ⟨Nat.minFac j, hfp.two_le, by omega, hfp, hfd, hsq⟩
  · intro hp
    refine ⟨hp.two_le, ?_⟩
    rintro ⟨d, hd2, hdlt, hdp, hdd, hdsq⟩
    rcases Nat.Prime.eq_one_or_self_of_dvd hp d hdd with h | h
    · omega
    · subst h
      have hmul : 2 * d ≤ d * d := Nat.mul_le_mul_right d hd2
      omega

/-- Combined sieve correctness for the table produced after the two
initial assignments. -/
theorem sieve_table_correct (L : Nat) (hL : 1 ≤ L) :
    (sieveLoop (List.range' 2 (Nat.sqrt L + 1 - 2))
        (((List.replicate (L + 1) true).set 0 false).set 1 false)).length = L + 1 ∧
      ∀ j, j ≤ L →
        ((sieveLoop (List.range' 2 (Nat.sqrt L + 1 - 2))
          (((List.replicate (L + 1) true).set 0 false).set 1 false)).getD j false = true
         ↔ j.Prime) := by
  have hsq1 : 1 ≤ Nat.sqrt L := Nat.le_sqrt.mpr (by omega)
  have hfin := sieve_loop_inv L (Nat.sqrt L + 1 - 2) 2 _ (by norm_num)
    (by have := Nat.sqrt_le_self L; omega) (sieve_init L hL)
  have hm : 2 + (Nat.sqrt L + 1 - 2) = Nat.sqrt L + 1 := by omega
  rw [hm] at hfin
  obtain ⟨hlen, hiff⟩ := hfin
  exact ⟨hlen, fun j hj => (hiff j hj).trans (not_struck_iff_prime L j hj)⟩

/-- For `limit ≥ 1` both index assignments are in range and the sieve
returns the processed table. -/
theorem sieve_some (limit : Nat) (h : 1 ≤ limit) :
    sieve_of_eratosthenes limit =
      some (sieveLoop (List.range' 2 (Nat.sqrt limit + 1 - 2))
        (((List.replicate (limit + 1) true).set 0 false).set 1 false)) := by
  have h0 : 0 < (List.replicate (limit + 1) true).length := by simp
  have h1 : 1 < ((List.replicate (limit + 1) true).set 0 false).length := by
    simp
    omega
  simp only [sieve_of_eratosthenes, setAt, if_pos h0, if_pos h1, Option.some_bind]

/-- Claim C5: for every `limit ≥ 1` the sieve table marks index `i ≤ limit`
iff `i` is prime; and at `limit = 30` the marked indices are exactly
`{2, 3, 5, 7, 11, 13, 17, 19, 23, 29}`. -/
theorem claim_C5_sieve_correct :
    (∀ limit i, 1 ≤ limit → i ≤ limit →
      ∃ t, sieve_of_eratosthenes limit = some t ∧
        (t.getD i false = true ↔ i.Prime)) ∧
      (sieve_of_eratosthenes 30).map
          (fun t => (List.range 31).filter (fun i => t.getD i false)) =
        some [2, 3, 5, 7, 11, 13, 17, 19, 23, 29] := by
  constructor
  · intro limit i h1 hi
    exact ⟨_, sieve_some limit h1, (sieve_table_correct limit h1).2 i hi⟩
  · have hs : Nat.sqrt 30 = 5 := (Nat.eq_sqrt.mpr (by norm_num)).symm
    simp only [sieve_of_eratosthenes, hs]
    decide

/-- Witness for claim C5 at `limit = 30`, `i = 29`. -/
theorem claim_C5_witness :
    ∃ t, sieve_of_eratosthenes 30 = some t ∧
      (t.getD 29 false = true ↔ Nat.Prime 29) :=
  claim_C5_sieve_correct.1 30 29 (by norm_num) (by norm_num)

/-- Counterexample to claim C7 as stated: at `limit = 0` the source
raises an `IndexError` on the assignment `is_prime[1] = 0` (the table
has a single entry), so the sieve is not total on every non-negative
limit. -/
theorem claim_C7_counterexample : sieve_of_eratosthenes 0 = none := rfl

/-- Claim C7, amended: the sieve is total for every `limit ≥ 1` (the
out-of-range index assignment occurs only at `limit = 0`), and for
`limit < 2` the returned table has no entry marked true. -/
theorem claim_C7_amended_total (limit : Nat) (h : 1 ≤ limit) :
    ∃ t, sieve_of_eratosthenes limit = some t ∧
      (limit < 2 → ∀ b ∈ t, b = false) := by
  refine ⟨_, sieve_some limit h, ?_⟩
  intro hlt b hb
  have h1 : limit = 1 := by omega
  subst h1
  have htab : sieveLoop (List.range' 2 (Nat.sqrt 1 + 1 - 2))
      (((List.replicate (1 + 1) true).set 0 false).set 1 false) = [false, false] := by
    rw [Nat.sqrt_one]
    rfl
  rw [htab] at hb
  simpa using hb

/-- Witness for the amended claim C7 at `limit = 1`. -/
theorem claim_C7_witness :
    ∃ t, sieve_of_eratosthenes 1 = some t ∧ ((1 : Nat) < 2 → ∀ b ∈ t, b = false) :=
  claim_C7_amended_total 1 (by norm_num)

/-- Claim C9: on every even positive input, `classify_orbit` returns
either the resonant or the generic label, never the middle one (for
even `n`, divisibility by 3 forces divisibility by 6). -/
theorem claim_C9_classify_even (n : Nat) (hpos : 0 < n) (he : n % 2 = 0) :
    (classify_orbit n = "Resonant (mod 6)" ∨ classify_orbit n = "Generic") ∧
      classify_orbit n ≠ "Stable (mod 3)" := by
  by_cases h6 : n % 6 = 0
  · rw [classify_orbit, if_pos h6]
    exact ⟨Or.inl rfl, by decide⟩
  · have h3 : ¬ n % 3 = 0 := by omega
    rw [classify_orbit, if_neg h6, if_neg h3]
    exact ⟨Or.inr rfl, by decide⟩

/-- Witness for claim C9 at `n = 4`. -/
theorem claim_C9_witness :
    (classify_orbit 4 = "Resonant (mod 6)" ∨ classify_orbit 4 = "Generic") ∧
      classify_orbit 4 ≠ "Stable (mod 3)" :=
  claim_C9_classify_even 4 (by norm_num) (by norm_num)

/-- Claim C3 is refuted by the code: at `n = 32` (so `n/2 = 16`, a power
of two) `wormhole_factor` returns `31/30`, not `1.0`, because the loop
never strips the factor 2 from `temp` and the final `temp > 2` branch
then fires on `temp = 32`.  This contradicts the function's own
docstring, whose product over primes `p ∣ n`, `p > 2` is empty here. -/
theorem claim_C3_wormhole_pow2_bug :
    wormhole_factor 32 [2, 3, 5, 7] = 31 / 30 ∧ (31 / 30 : Rat) ≠ 1 := by
  constructor
  · have hs : Nat.sqrt 32 = 5 := (Nat.eq_sqrt.mpr (by norm_num)).symm
    have h1 : wf_loop 5 [2, 3, 5, 7] (1, 32) = (1, 32) := by
      norm_num [wf_loop]
    rw [wormhole_factor, hs, h1]
    norm_num
  · norm_num

/-- Claim C4 is refuted by the code: at `n = 12` (so `n/2 = 6 = 2·3`,
distinct odd primes `{3}`, expected factor `(3-1)/(3-2) = 2`) the code
returns 3: after stripping 3 the remaining `temp = 4 = 2²` is neither 1
nor a prime, yet the final `temp > 2` branch multiplies by
`(4-1)/(4-2) = 3/2`. -/
theorem claim_C4_wormhole_distinct_bug :
    wormhole_factor 12 [2, 3, 5, 7, 11] = 3 ∧ (3 : Rat) ≠ 2 := by
  constructor
  · have hs : Nat.sqrt 12 = 3 := (Nat.eq_sqrt.mpr (by norm_num)).symm
    have hstrip : strip_factor 3 12 = 4 := by
      rw [strip_factor]
      norm_num
      rw [strip_factor]
      norm_num
    have h1 : wf_loop 3 [2, 3, 5, 7, 11] (1, 12) = (2, 4) := by
      norm_num [wf_loop, hstrip]
    rw [wormhole_factor, hs, h1]
    norm_num
  · norm_num

/-- The counting loop equals the count of qualifying primes among the
listed primes below the break point `n`. -/
theorem gcLoop_eq_countP (n : Nat) (table : List Bool) :
    ∀ (ps : List Nat) (count : Nat),
      gcLoop n table ps count =
        count + (ps.takeWhile (fun p => decide (p < n))).countP
          (fun p => decide (1 < p ∧ 1 < n - p ∧ table.getD (n - p) false = true)) := by
  intro ps
  induction ps with
  | nil => intro count; simp [gcLoop]
  | cons p ps ih =>
      intro count
      by_cases hge : n ≤ p
      · have hnp : ¬ p < n := by omega
        simp [gcLoop, if_pos hge, List.takeWhile_cons, hnp]
      · have hlt : p < n := by omega
        have htw : (p :: ps).takeWhile (fun p => decide (p < n)) =
            p :: ps.takeWhile (fun p => decide (p < n)) := by
          rw [List.takeWhile_cons, if_pos (by simpa using hlt)]
        simp only [gcLoop]
        rw [if_neg hge, htw, List.countP_cons]
        by_cases hc : (1 < p ∧ 1 < n - p ∧ table.getD (n - p) false = true)
        · rw [if_pos hc, ih (count + 1), decide_eq_true hc]
          simp
          omega
        · rw [if_neg hc, ih count, decide_eq_false hc]
          simp

/-- On a strictly increasing list, taking up to the first failure of
`p < n` is the same as keeping all elements below `n`. -/
theorem takeWhile_lt_eq_filter (n : Nat) :
    ∀ (l : List Nat), l.Pairwise (· < ·) →
      l.takeWhile (fun p => decide (p < n)) = l.filter (fun p => decide (p < n)) := by
  intro l
  induction l with
  | nil => intro _; rfl
  | cons a l ih =>
      intro hp
      obtain ⟨ha, hl⟩ := List.pairwise_cons.mp hp
      by_cases h : a < n
      · rw [List.takeWhile_cons, List.filter_cons, if_pos (by simpa using h),
          if_pos (by simpa using h), ih hl]
      · have hall : ∀ b ∈ l, ¬ ((fun p => decide (p < n)) b = true) := by
          intro b hb
          have := ha b hb
          simp only [decide_eq_true_eq]
          omega
        rw [List.takeWhile_cons, if_neg (by simpa using h), List.filter_cons,
          if_neg (by simpa using h)]
        exact (List.filter_eq_nil_iff.mpr hall).symm

/-- Restricting `range m` to entries below `n ≤ m` yields `range n`. -/
theorem range_filter_lt (m n : Nat) (h : n ≤ m) :
    (List.range m).filter (fun p => decide (p < n)) = List.range n := by
  induction m with
  | zero =>
      have h0 : n = 0 := by omega
      subst h0
      rfl
  | succ m ih =>
      rcases Nat.lt_or_ge m n with hmn | hmn
      · have hn : n = m + 1 := by omega
        subst hn
        apply List.filter_eq_self.mpr
        intro a ha
        simpa using List.mem_range.mp ha
      · rw [List.range_succ, List.filter_append, ih hmn]
        have hnm : ¬ m < n := by omega
        simp [hnm]

/-- A Bool equal to true exactly on a decidable proposition is the
decision of that proposition. -/
theorem bool_eq_decide (b : Bool) (P : Prop) [Decidable P] (h : b = true ↔ P) :
    b = decide P := by
  by_cases hp : P
  · rw [h.mpr hp, decide_eq_true hp]
  · rw [decide_eq_false hp]
    cases b
    · rfl
    · exact absurd (h.mp rfl) hp

/-- Claim C6: for even `4 ≤ n ≤ limit`, the scan loop's ordered Goldbach
count over the sieve-derived prime sequence equals the number of primes
`p < n` with `n - p` prime (both orderings counted, the self-paired case
once), and primes `≥ n` never contribute (the loop breaks there). -/
theorem claim_C6_goldbach_count (limit n : Nat) (h4 : 4 ≤ n) (hn : n ≤ limit)
    (he : n % 2 = 0) :
    ∃ t, sieve_of_eratosthenes limit = some t ∧
      goldbach_count n t ((List.range (limit + 1)).filter (fun i => t.getD i false)) =
        ((List.range n).filter
          (fun p => decide (Nat.Prime p) && decide (Nat.Prime (n - p)))).length ∧
      goldbach_count n t ((List.range (limit + 1)).filter (fun i => t.getD i false)) =
        goldbach_count n t
          (((List.range (limit + 1)).filter (fun i => t.getD i false)).filter
            (fun p => decide (p < n))) := by
  have h1 : 1 ≤ limit := by omega
  refine ⟨_, sieve_some limit h1, ?_⟩
  obtain ⟨hlen, hiff⟩ := sieve_table_correct limit h1
  set t := sieveLoop (List.range' 2 (Nat.sqrt limit + 1 - 2))
    (((List.replicate (limit + 1) true).set 0 false).set 1 false) with ht
  set primes := (List.range (limit + 1)).filter (fun i => t.getD i false) with hprimes
  have hpw : primes.Pairwise (· < ·) :=
    List.Pairwise.sublist (List.filter_sublist _) (List.pairwise_lt_range _)
  have hpwf : (primes.filter (fun p => decide (p < n))).Pairwise (· < ·) :=
    List.Pairwise.sublist (List.filter_sublist _) hpw
  have hcount : goldbach_count n t primes =
      (primes.filter (fun p => decide (p < n))).countP
        (fun p => decide (1 < p ∧ 1 < n - p ∧ t.getD (n - p) false = true)) := by
    rw [goldbach_count, gcLoop_eq_countP, takeWhile_lt_eq_filter n primes hpw]
    omega
  have hcount2 : goldbach_count n t (primes.filter (fun p => decide (p < n))) =
      (primes.filter (fun p => decide (p < n))).countP
        (fun p => decide (1 < p ∧ 1 < n - p ∧ t.getD (n - p) false = true)) := by
    rw [goldbach_count, gcLoop_eq_countP,
      takeWhile_lt_eq_filter n _ hpwf, List.filter_filter]
    simp
  constructor
  · rw [hcount]
    rw [List.countP_eq_length_filter]
    rw [hprimes, List.filter_filter, List.filter_filter]
    have htarget : (List.range n).filter
        (fun p => decide (Nat.Prime p) && decide (Nat.Prime (n - p))) =
        (List.range (limit + 1)).filter
          (fun p => (decide (Nat.Prime p) && decide (Nat.Prime (n - p))) &&
            decide (p < n)) := by
      rw [← range_filter_lt (limit + 1) n (by omega), List.filter_filter]
    rw [htarget]
    apply congrArg
    apply List.filter_congr
    intro a ha
    have haL : a ≤ limit := by
      have := List.mem_range.mp ha
      omega
    have hga : t.getD a false = decide (Nat.Prime a) :=
      bool_eq_decide _ _ (hiff a haL)
    have hgna : t.getD (n - a) false = decide (Nat.Prime (n - a)) :=
      bool_eq_decide _ _ (hiff (n - a) (by omega))
    rw [hgna, hga, Bool.eq_iff_iff]
    simp only [Bool.and_eq_true, decide_eq_true_eq]
    constructor
    · intro hx
      tauto
    · intro hx
      have hpa : Nat.Prime a := by tauto
      have hpn2 : Nat.Prime (n - a) := by tauto
      have g1 := hpa.one_lt
      have g2 := hpn2.one_lt
      tauto
  · rw [hcount, hcount2]

/-- Witness for claim C6 at `limit = 30`, `n = 10` (count 3: the pairs
(3,7), (5,5), (7,3)). -/
theorem claim_C6_witness :
    ∃ t, sieve_of_eratosthenes 30 = some t ∧
      goldbach_count 10 t ((List.range 31).filter (fun i => t.getD i false)) =
        ((List.range 10).filter
          (fun p => decide (Nat.Prime p) && decide (Nat.Prime (10 - p)))).length ∧
      goldbach_count 10 t ((List.range 31).filter (fun i => t.getD i false)) =
        goldbach_count 10 t
          (((List.range 31).filter (fun i => t.getD i false)).filter
            (fun p => decide (p < 10))) :=
  claim_C6_goldbach_count 30 10 (by norm_num) (by norm_num) (by norm_num)
